import Mathlib

/-!
Shallow embedding of the sociopath crawl engine's core components:
platform matchers (generic, github, codeberg), link normalization and
deduplication, the domain rate limiter, the codeberg and generic fetch
control flow, and the github JSON profile parser.  Go string primitives
are modelled character-wise (Go operates on UTF-8 bytes; all string
constants involved are ASCII, where the two views agree).
-/

set_option maxRecDepth 4000

/-! ## Go string primitives -/

/-- Characterwise ASCII lowercasing, the effect of Go strings.ToLower on
the ASCII range (code points 65–90 shift by 32). -/
def lowerChar (c : Char) : Char :=
  if 65 ≤ c.toNat ∧ c.toNat ≤ 90 then Char.ofNat (c.toNat + 32) else c

/-- Go strings.ToLower (ASCII model). -/
def toLowerGo (s : String) : String := ⟨s.data.map lowerChar⟩

/-- Bool test that pattern list is a prefix of the other list. -/
def isPrefixL : List Char → List Char → Bool
  | [], _ => true
  | _ :: _, [] => false
  | a :: as, b :: bs => a = b && isPrefixL as bs

/-- Go strings.HasPrefix. -/
def hasPrefixGo (s pre : String) : Bool := isPrefixL pre.data s.data

/-- Go strings.HasSuffix. -/
def hasSuffixGo (s suf : String) : Bool := isPrefixL suf.data.reverse s.data.reverse

/-- Go strings.TrimPrefix: cut one leading occurrence if present. -/
def trimPrefixGo (s pre : String) : String :=
  if hasPrefixGo s pre then ⟨s.data.drop pre.data.length⟩ else s

/-- Go strings.TrimSuffix: cut one trailing occurrence if present. -/
def trimSuffixGo (s suf : String) : String :=
  if hasSuffixGo s suf then ⟨s.data.take (s.data.length - suf.data.length)⟩ else s

/-- First index in the second list at which the first list occurs as a
prefix (Go strings.Index, in chars). -/
def indexL (pat : List Char) : List Char → Option Nat
  | [] => if pat.isEmpty then some 0 else none
  | c :: t => if isPrefixL pat (c :: t) then some 0 else (indexL pat t).map (· + 1)

/-- Go strings.Contains. -/
def containsGo (s sub : String) : Bool := (indexL sub.data s.data).isSome

/-- Go unicode white space test, restricted to the ASCII range. -/
def isSpaceGo (c : Char) : Bool :=
  c = ' ' || c = '\t' || c = '\n' || c = '\r' || c = '\x0b' || c = '\x0c'

/-- Go strings.TrimSpace (ASCII model). -/
def trimSpaceGo (s : String) : String :=
  ⟨((s.data.dropWhile isSpaceGo).reverse.dropWhile isSpaceGo).reverse⟩

/-! ## Platform matchers -/

/-- generic.Match: `func Match(_ string) bool { return true }` — the
fallback matcher accepts every URL. -/
def genericMatch (_ : String) : Bool := true

/-- The known non-profile path segments rejected by github.Match. -/
def githubNonProfiles : List String :=
  ["features", "security", "enterprise", "team",
   "marketplace", "sponsors", "topics", "trending",
   "collections", "orgs", "solutions", "resources",
   "customer-stories", "partners", "accelerator",
   "trust-center", "why-github", "mcp", "fluidicon",
   "login", "join", "pricing", "about",
   "premium-support", "newsletter", "edu", "mobile",
   "readme", "explore", "new", "settings",
   "notifications", "issues", "pulls", "codespaces",
   "copilot", "actions", "projects", "packages",
   "discussions", "wiki", "stars", "watching",
   "search", "site", "apps"]

/-- github.Match: lowercase, require a `github.com/` component, take the
path after it, strip one trailing slash and any query, and accept only a
single non-empty path segment that is not a known non-profile page. -/
def githubMatch (urlStr : String) : Bool :=
  let lower := toLowerGo urlStr
  if ¬ containsGo lower "github.com/" then false
  else
    match indexL "github.com/".data lower.data with
    | none => false
    | some idx =>
      let path0 : String := ⟨lower.data.drop (idx + "github.com/".data.length)⟩
      let path1 := trimSuffixGo path0 "/"
      let path2 : String :=
        match indexL "?".data path1.data with
        | some q => ⟨path1.data.take q⟩
        | none => path1
      if containsGo path2 "/" then false
      else path2 ≠ "" && ¬ githubNonProfiles.contains path2

/-- Modelled from the spec: the platform registry's Resolve walks an
ordered matcher list and returns the index of the first matcher that
accepts the URL (the registry itself is not among the provided source
files; only the matchers are). -/
def resolve : List (String → Bool) → String → Option Nat
  | [], _ => none
  | m :: ms, u => if m u then some 0 else (resolve ms u).map (· + 1)

/-! ## Link normalization and deduplication (github.go and generic.go
share this code verbatim) -/

/-- The normalization key used by dedupeLinks:
`strings.TrimSuffix(strings.ToLower(link), "/")`. -/
def normalizeLink (link : String) : String := trimSuffixGo (toLowerGo link) "/"

/-- The loop body of dedupeLinks: keep a link when its normalized form
has not been seen yet. -/
def dedupeAux (seen : List String) : List String → List String
  | [] => []
  | l :: ls =>
    let n := normalizeLink l
    if seen.contains n then dedupeAux seen ls
    else l :: dedupeAux (n :: seen) ls

/-- dedupeLinks from github.go / generic.go. -/
def dedupeLinks (links : List String) : List String := dedupeAux [] links

/-- github.filterSamePlatformLinks: keep exactly the links github.Match
rejects. -/
def filterSamePlatformLinks (links : List String) : List String :=
  links.filter (fun l => ¬ githubMatch l)

/-- The tail of github Client.Fetch restricted to the social-link
pipeline: the profile's links from the API parse, the profile page and
the README are concatenated, deduplicated and stripped of same-platform
links (field and README extraction do not touch SocialLinks and are
omitted). -/
def ghFetchSocialLinks (apiLinks htmlLinks readmeLinks : List String) : List String :=
  filterSamePlatformLinks (dedupeLinks (apiLinks ++ htmlLinks ++ readmeLinks))

/-! ## Theorems: C2 and C3 -/

/-- C2: the generic platform matcher accepts every input, so a resolve
over any matcher list that ends with the generic matcher always produces
a handle. -/
theorem generic_match_total :
    (∀ u : String, genericMatch u = true) ∧
    (∀ (ms : List (String → Bool)) (u : String), resolve (ms ++ [genericMatch]) u ≠ none) := by
  constructor
  · intro u; rfl
  · intro ms u
    induction ms with
    | nil => simp [resolve, genericMatch]
    | cons m ms ih =>
      simp only [List.cons_append, resolve]
      cases hm : m u with
      | true => simp
      | false =>
        simp only [Bool.false_eq_true, if_false, ne_eq, Option.map_eq_none']
        exact ih

/-- Witness for C2 at a concrete matcher list and URL. -/
theorem generic_match_total_witness :
    genericMatch "https://example.com" = true ∧
    resolve [fun _ => false, genericMatch] "https://example.com" ≠ none :=
  ⟨generic_match_total.1 "https://example.com",
   generic_match_total.2 [fun _ => false] "https://example.com"⟩

/-- C3: every social link on a Profile produced by the github Fetch
pipeline fails github.Match — same-platform links are filtered out
before they can reach the frontier. -/
theorem github_fetch_no_self_links
    (apiLinks htmlLinks readmeLinks : List String) (l : String)
    (h : l ∈ ghFetchSocialLinks apiLinks htmlLinks readmeLinks) :
    githubMatch l = false := by
  unfold ghFetchSocialLinks filterSamePlatformLinks at h
  have := (List.mem_filter.mp h).2
  simpa using this

/-- Witness for C3: a concrete Fetch link set containing a GitHub link
and a Mastodon link; the surviving Mastodon link fails github.Match. -/
theorem github_fetch_no_self_links_witness :
    githubMatch "https://mastodon.social/@alice" = false :=
  github_fetch_no_self_links ["https://twitter.com/bob"]
    ["https://github.com/alice", "https://mastodon.social/@alice"] []
    "https://mastodon.social/@alice" (by decide)

/-! ## C4: normalization and dedup idempotence -/

theorem toNat_ofNat_valid (n : Nat) (h : n < 0xd800) : (Char.ofNat n).toNat = n := by
  unfold Char.ofNat
  rw [dif_pos (Or.inl h)]
  simp [Char.ofNatAux, Char.toNat, UInt32.ofNat', UInt32.toNat, BitVec.toNat_ofNatLt]

theorem lowerChar_toNat (c : Char) :
    (lowerChar c).toNat = if 65 ≤ c.toNat ∧ c.toNat ≤ 90 then c.toNat + 32 else c.toNat := by
  unfold lowerChar
  split
  · next h => exact toNat_ofNat_valid _ (by omega)
  · rfl

theorem char_toNat_inj {a b : Char} (h : a.toNat = b.toNat) : a = b := by
  apply Char.ext
  apply UInt32.eq_of_toBitVec_eq
  exact BitVec.eq_of_toNat_eq h

theorem lowerChar_idem (c : Char) : lowerChar (lowerChar c) = lowerChar c := by
  apply char_toNat_inj
  rw [lowerChar_toNat, lowerChar_toNat]
  split
  · split <;> omega
  · rfl

theorem lowerChar_eq_slash {c : Char} : lowerChar c = '/' ↔ c = '/' := by
  constructor
  · intro h
    have h2 := congrArg Char.toNat h
    rw [lowerChar_toNat] at h2
    apply char_toNat_inj
    simp only [show ('/' : Char).toNat = 47 from rfl] at h2 ⊢
    split at h2 <;> omega
  · intro h; subst h; rfl

theorem map_lowerChar_idem (l : List Char) :
    (l.map lowerChar).map lowerChar = l.map lowerChar := by
  simp [List.map_map, Function.comp_def, lowerChar_idem]

/-- The reverse-list view of stripping one leading character `'/'`. -/
def trimHeadSlash : List Char → List Char
  | [] => []
  | c :: t => if c = '/' then t else c :: t

/-- The reverse-list view of normalizeLink. -/
def normRev (r : List Char) : List Char := trimHeadSlash (r.map lowerChar)

theorem normalizeLink_eq_normRev (s : String) :
    normalizeLink s = ⟨(normRev s.data.reverse).reverse⟩ := by
  have hR : s.data.reverse.map lowerChar = (s.data.map lowerChar).reverse := by
    simp [List.map_reverse]
  unfold normalizeLink trimSuffixGo hasSuffixGo toLowerGo normRev
  rw [hR]
  have hdata : (⟨s.data.map lowerChar⟩ : String).data = s.data.map lowerChar := rfl
  rw [hdata]
  have hslash : "/".data.reverse = ['/'] := rfl
  rw [hslash]
  cases hr : (s.data.map lowerChar).reverse with
  | nil =>
    have h0 : s.data.map lowerChar = [] := by simpa using congrArg List.reverse hr
    simp [isPrefixL, trimHeadSlash, h0]
  | cons c t =>
    have hl : s.data.map lowerChar = t.reverse ++ [c] := by
      have := congrArg List.reverse hr
      simpa using this
    by_cases hc : c = '/'
    · subst hc
      rw [if_pos (by simp [isPrefixL])]
      have hlen : (s.data.map lowerChar).length - "/".data.length = t.reverse.length := by
        rw [hl]; simp
      rw [hlen, hl, List.take_left]
      simp [trimHeadSlash]
    · rw [if_neg (by simp [isPrefixL]; exact fun h => absurd h.symm hc)]
      simp only [trimHeadSlash, if_neg hc]
      have : (c :: t).reverse = s.data.map lowerChar := by
        rw [← hr]; simp
      rw [this]

theorem normRev_idem (r : List Char) (h : isPrefixL "//".data r = false) :
    normRev (normRev r) = normRev r := by
  cases r with
  | nil => rfl
  | cons a t =>
    by_cases ha : lowerChar a = '/'
    · cases t with
      | nil =>
        simp [normRev, trimHeadSlash, ha]
      | cons b t' =>
        have haa : a = '/' := lowerChar_eq_slash.mp ha
        have hb : ¬ b = '/' := by
          intro hbb
          subst haa; subst hbb
          simp [isPrefixL] at h
        have hlb : ¬ lowerChar b = '/' := fun hc => hb (lowerChar_eq_slash.mp hc)
        simp [normRev, trimHeadSlash, ha, hlb, lowerChar_idem, map_lowerChar_idem]
    · simp [normRev, trimHeadSlash, ha, lowerChar_idem, map_lowerChar_idem]

theorem contains_iff_mem (l : List String) (a : String) : l.contains a = true ↔ a ∈ l := by
  simp

theorem dedupeAux_fresh (ls : List String) :
    ∀ seen : List String,
      (∀ x ∈ dedupeAux seen ls, normalizeLink x ∉ seen) ∧
      ((dedupeAux seen ls).map normalizeLink).Nodup := by
  induction ls with
  | nil => intro seen; simp [dedupeAux]
  | cons l ls ih =>
    intro seen
    by_cases hc : seen.contains (normalizeLink l) = true
    · have hstep : dedupeAux seen (l :: ls) = dedupeAux seen ls := by
        simp only [dedupeAux]; rw [if_pos hc]
      rw [hstep]
      exact ih seen
    · have hc' : seen.contains (normalizeLink l) = false := by
        cases hcc : seen.contains (normalizeLink l) with
        | false => rfl
        | true => exact absurd hcc hc
      have hstep : dedupeAux seen (l :: ls) =
          l :: dedupeAux (normalizeLink l :: seen) ls := by
        simp only [dedupeAux]; rw [if_neg hc]
      have hnm : normalizeLink l ∉ seen := fun hm => hc ((contains_iff_mem _ _).mpr hm)
      rw [hstep]
      constructor
      · intro x hx
        rcases List.mem_cons.mp hx with rfl | hx2
        · exact hnm
        · have := (ih (normalizeLink l :: seen)).1 x hx2
          exact fun hm => this (List.mem_cons_of_mem _ hm)
      · rw [List.map_cons, List.nodup_cons]
        constructor
        · intro hmem
          rcases List.mem_map.mp hmem with ⟨y, hy, hyn⟩
          have := (ih (normalizeLink l :: seen)).1 y hy
          exact this (by rw [hyn]; exact List.mem_cons_self _ _)
        · exact (ih (normalizeLink l :: seen)).2

theorem dedupeAux_fixed (xs : List String) :
    ∀ seen : List String, (∀ x ∈ xs, normalizeLink x ∉ seen) →
      (xs.map normalizeLink).Nodup → dedupeAux seen xs = xs := by
  induction xs with
  | nil => intro seen _ _; rfl
  | cons x xs ih =>
    intro seen hfresh hnd
    have hnd' : normalizeLink x ∉ xs.map normalizeLink ∧ (xs.map normalizeLink).Nodup := by
      rw [List.map_cons, List.nodup_cons] at hnd
      exact hnd
    have hc : ¬ seen.contains (normalizeLink x) = true := by
      intro hcc
      exact hfresh x (List.mem_cons_self _ _) ((contains_iff_mem _ _).mp hcc)
    have hstep : dedupeAux seen (x :: xs) =
        x :: dedupeAux (normalizeLink x :: seen) xs := by
      simp only [dedupeAux]; rw [if_neg hc]
    rw [hstep]
    congr 1
    apply ih
    · intro y hy hmem
      rcases List.mem_cons.mp hmem with heq | hmem2
      · exact hnd'.1 (by rw [← heq]; exact List.mem_map_of_mem _ hy)
      · exact hfresh y (List.mem_cons_of_mem _ hy) hmem2
    · exact hnd'.2

/-- C4 counterexample: normalization is not idempotent as claimed — a URL
ending in two slashes loses one slash per application, so normalizing
twice differs from normalizing once. -/
theorem normalize_not_idem_counterexample :
    normalizeLink (normalizeLink "https://example.com//") ≠
      normalizeLink "https://example.com//" := by decide

/-- C4 (amended): normalization is idempotent for every URL string that
does not end in two slashes, and dedupeLinks applied twice always yields
the same list as applied once. -/
theorem normalize_dedupe_idem (u : String) (ls : List String)
    (h : hasSuffixGo u "//" = false) :
    normalizeLink (normalizeLink u) = normalizeLink u ∧
    dedupeLinks (dedupeLinks ls) = dedupeLinks ls := by
  constructor
  · rw [normalizeLink_eq_normRev u, normalizeLink_eq_normRev]
    simp only [List.reverse_reverse]
    rw [normRev_idem]
    exact h
  · unfold dedupeLinks
    exact dedupeAux_fixed _ [] (fun x _ h => by simp at h) (dedupeAux_fresh ls []).2

/-- Witness for C4 at a concrete URL and link list. -/
theorem normalize_dedupe_idem_witness :
    normalizeLink (normalizeLink "https://Example.com/") =
        normalizeLink "https://Example.com/" ∧
      dedupeLinks (dedupeLinks ["https://A.com/", "https://a.com", "https://b.com"]) =
        dedupeLinks ["https://A.com/", "https://a.com", "https://b.com"] :=
  normalize_dedupe_idem "https://Example.com/"
    ["https://A.com/", "https://a.com", "https://b.com"] (by decide)

/-! ## Go net/url model: the host extraction performed by url.Parse
(control-character rejection, fragment and query cutting, scheme
detection, authority parsing with userinfo and port handling).
Percent-escape validation is not modelled. -/

/-- An ASCII control character; Go net/url rejects URLs containing one. -/
def isCtl (c : Char) : Bool := c.toNat < 0x20 || c.toNat = 0x7f

/-- ASCII letter (Go scheme first character). -/
def isAlphaGo (c : Char) : Bool :=
  (65 ≤ c.toNat && c.toNat ≤ 90) || (97 ≤ c.toNat && c.toNat ≤ 122)

/-- ASCII digit. -/
def isDigitGo (c : Char) : Bool := 48 ≤ c.toNat && c.toNat ≤ 57

/-- Characters Go getScheme accepts after the first one. -/
def isSchemeRest (c : Char) : Bool := isAlphaGo c || isDigitGo c || c = '+' || c = '-' || c = '.'

/-- The part of a Go strings.Cut before the separator. -/
def cutBefore (c : Char) (l : List Char) : List Char := l.takeWhile (fun x => x ≠ c)

/-- The part of a list strictly after the last occurrence of c (the whole
list when c does not occur). -/
def afterLast (c : Char) (l : List Char) : List Char :=
  (l.reverse.takeWhile (fun x => x ≠ c)).reverse

/-- Go getScheme: none = parse error (colon with empty scheme), some none
= no scheme found (rest is the whole input), some (some (sc, rest)) =
scheme found. -/
def getSchemeAux (acc : List Char) : List Char → Option (Option (List Char × List Char))
  | [] => some none
  | c :: t =>
    if c = ':' then
      if acc.isEmpty then none
      else some (some (acc.reverse, t))
    else if (if acc.isEmpty then isAlphaGo c else isSchemeRest c) then
      getSchemeAux (c :: acc) t
    else some none

/-- Go validOptionalPort: empty, or a colon followed by digits. -/
def validOptionalPort (p : List Char) : Bool :=
  match p with
  | [] => true
  | c :: rest => c = ':' && rest.all isDigitGo

/-- Go parseHost: validate the bracket/port structure of host[:port];
returns the host:port text unchanged on success. -/
def parseHostGo (hostport : List Char) : Option (List Char) :=
  if hostport.head? = some '[' then
    if hostport.contains ']' then
      if validOptionalPort (afterLast ']' hostport) then some hostport else none
    else none
  else
    if hostport.contains ':' then
      if validOptionalPort (':' :: afterLast ':' hostport) then some hostport else none
    else some hostport

/-- The result of the modelled url.Parse: only the components the rate
limiter and the SSRF validation consume. -/
structure GoURL where
  scheme : String
  host : String
deriving Repr, DecidableEq

/-- Modelled Go url.Parse restricted to scheme/host extraction: reject
control characters, cut the fragment and the query, detect the scheme,
and parse the authority exactly when the remainder starts with `//`
(with Go's `///`-without-scheme exception and its colon-in-first-segment
error). -/
def goUrlParse (rawURL : String) : Option GoURL :=
  let beforeFrag := cutBefore '#' rawURL.data
  if beforeFrag.any isCtl then none
  else
    match getSchemeAux [] beforeFrag with
    | none => none
    | some res =>
      let scheme := match res with | some (sc, _) => sc | none => ([] : List Char)
      let rest1 := match res with | some (_, r) => r | none => beforeFrag
      let rest2 := cutBefore '?' rest1
      if isPrefixL "//".data rest2 ∧ (scheme ≠ [] ∨ ¬ isPrefixL "///".data rest2) then
        let auth0 := rest2.drop 2
        let authority := auth0.takeWhile (fun x => x ≠ '/')
        let hostport := afterLast '@' authority
        match parseHostGo hostport with
        | none => none
        | some h => some ⟨⟨scheme.map lowerChar⟩, ⟨h⟩⟩
      else
        if scheme.isEmpty ∧ ¬ isPrefixL "//".data rest2 ∧
            (cutBefore '/' rest2).contains ':' then none
        else some ⟨⟨scheme.map lowerChar⟩, ""⟩

/-! ## Domain rate limiter (cache.DomainRateLimiter) -/

/-- cache.extractDomain: the Host of the parsed URL, or "" on error. -/
def extractDomain (rawURL : String) : String :=
  match goUrlParse rawURL with
  | none => ""
  | some u => u.host

/-- The limiter's state: per-domain last request times (sync.Map
modelled as a shadowing association list) and the set of domains that
own a lazily created mutex. -/
structure RLState where
  lastRequest : List (String × Nat)
  muDomains : List String
deriving Repr, DecidableEq

/-- Load from the lastRequest map. -/
def lookupLast (m : List (String × Nat)) (d : String) : Option Nat :=
  match m.find? (fun p => p.1 == d) with
  | some p => some p.2
  | none => none

/-- The sleep Wait performs: minDelay - elapsed when elapsed < minDelay,
else none. -/
def waitSleep (minDelay : Nat) (last : Option Nat) (now : Nat) : Nat :=
  match last with
  | some l => if now - l < minDelay then minDelay - (now - l) else 0
  | none => 0

/-- The time Wait stores for this request: the clock after sleeping
(idealized monotone clock: no time passes between the statements of the
critical section other than the sleep itself). -/
def waitRecorded (minDelay : Nat) (last : Option Nat) (now : Nat) : Nat :=
  now + waitSleep minDelay last now

/-- One completed DomainRateLimiter.Wait call entered at clock value
`now`: no-op on an empty domain, otherwise ensure the per-domain mutex
exists, sleep as required, and record the post-sleep time.  Returns the
new state and the slept duration. -/
def waitStep (minDelay : Nat) (s : RLState) (rawURL : String) (now : Nat) : RLState × Nat :=
  let domain := extractDomain rawURL
  if domain = "" then (s, 0)
  else
    let mus := if s.muDomains.contains domain then s.muDomains else domain :: s.muDomains
    let slp := waitSleep minDelay (lookupLast s.lastRequest domain) now
    ({ lastRequest := (domain, now + slp) :: s.lastRequest, muDomains := mus }, slp)

/-- The recorded request times of a serialized run of Wait calls for one
domain, given the clock value at which each call enters its critical
section. -/
def recordSeq (minDelay : Nat) : Option Nat → List Nat → List Nat
  | _, [] => []
  | last, t :: ts =>
    waitRecorded minDelay last t ::
      recordSeq minDelay (some (waitRecorded minDelay last t)) ts

/-- Arrival clocks are consistent with mutex serialization and a
monotone clock: each call enters its critical section no earlier than
the previous recorded time. -/
def serializedArrivals (minDelay : Nat) : Option Nat → List Nat → Bool
  | _, [] => true
  | last, t :: ts =>
    (match last with | some l => decide (l ≤ t) | none => true) &&
      serializedArrivals minDelay (some (waitRecorded minDelay last t)) ts

/-! ## C1: same-host Wait calls are spaced by at least minDelay -/

theorem waitRecorded_ge (d l t : Nat) (h : l ≤ t) :
    l + d ≤ waitRecorded d (some l) t := by
  simp only [waitRecorded, waitSleep]
  split <;> omega

theorem recordSeq_chain (d : Nat) (ts : List Nat) :
    ∀ last : Option Nat, serializedArrivals d last ts = true →
      List.Chain' (fun a b => a + d ≤ b) (recordSeq d last ts) := by
  induction ts with
  | nil => intro last _; simp [recordSeq]
  | cons t ts ih =>
    intro last h
    simp only [serializedArrivals, Bool.and_eq_true] at h
    have h2 : serializedArrivals d (some (waitRecorded d last t)) ts = true := h.2
    simp only [recordSeq]
    rw [List.chain'_cons']
    refine ⟨?_, ih _ h2⟩
    intro b hb
    cases ts with
    | nil => simp [recordSeq] at hb
    | cons u us =>
      simp only [recordSeq, List.head?_cons, Option.mem_def, Option.some.injEq] at hb
      subst hb
      have h3 : waitRecorded d last t ≤ u := by
        have h4 := h2
        simp only [serializedArrivals, Bool.and_eq_true] at h4
        simpa using of_decide_eq_true h4.1
      exact waitRecorded_ge d _ u h3

/-- C1: (bridge) a completed Wait on a URL with a non-empty domain
records exactly the post-sleep time for that domain; (spacing) along any
serialized run of Wait calls for one domain, consecutive recorded
request times differ by at least minDelay. -/
theorem wait_spacing (d : Nat) :
    (∀ (s : RLState) (u : String) (now : Nat), extractDomain u ≠ "" →
      lookupLast ((waitStep d s u now).1.lastRequest) (extractDomain u) =
        some (waitRecorded d (lookupLast s.lastRequest (extractDomain u)) now)) ∧
    (∀ (last : Option Nat) (ts : List Nat), serializedArrivals d last ts = true →
      List.Chain' (fun a b => a + d ≤ b) (recordSeq d last ts)) := by
  constructor
  · intro s u now hdom
    simp only [waitStep]
    rw [if_neg hdom]
    simp only [lookupLast, waitRecorded]
    rw [List.find?_cons_of_pos _ (by simp)]
  · intro last ts h
    exact recordSeq_chain d ts last h

/-- Witness for C1: the bridge at a concrete state and URL, and the
spacing on a concrete serialized run. -/
theorem wait_spacing_witness :
    lookupLast ((waitStep 5 ⟨[], []⟩ "https://example.com/a" 0).1.lastRequest)
        (extractDomain "https://example.com/a") =
      some (waitRecorded 5 (lookupLast [] (extractDomain "https://example.com/a")) 0) ∧
    List.Chain' (fun a b => a + 5 ≤ b) (recordSeq 5 none [0, 2, 100]) :=
  ⟨(wait_spacing 5).1 ⟨[], []⟩ "https://example.com/a" 0 (by decide),
   (wait_spacing 5).2 none [0, 2, 100] (by decide)⟩

/-! ## C8: fail-open Wait; pacing key depends on the authority only -/

/-- The character class this development allows in a host name when
stating the authority-extraction property (letters, digits, dot, dash). -/
def isHostCharGo (c : Char) : Bool := isAlphaGo c || isDigitGo c || c = '.' || c = '-'

theorem isAlphaGo_toNat {c : Char} (h : isAlphaGo c = true) :
    (65 ≤ c.toNat ∧ c.toNat ≤ 90) ∨ (97 ≤ c.toNat ∧ c.toNat ≤ 122) := by
  simpa [isAlphaGo, Bool.or_eq_true, Bool.and_eq_true, decide_eq_true_eq] using h

theorem isHostCharGo_toNat {c : Char} (h : isHostCharGo c = true) :
    (65 ≤ c.toNat ∧ c.toNat ≤ 90) ∨ (97 ≤ c.toNat ∧ c.toNat ≤ 122) ∨
      (48 ≤ c.toNat ∧ c.toNat ≤ 57) ∨ c.toNat = 46 ∨ c.toNat = 45 := by
  simp only [isHostCharGo, isAlphaGo, isDigitGo, Bool.or_eq_true, Bool.and_eq_true,
    decide_eq_true_eq] at h
  by_cases hd : c = '.'
  · subst hd; exact Or.inr (Or.inr (Or.inr (Or.inl rfl)))
  · by_cases he : c = '-'
    · subst he; exact Or.inr (Or.inr (Or.inr (Or.inr rfl)))
    · simp only [hd, he, or_false] at h
      tauto

theorem takeWhile_append_all {p : Char → Bool} (l₁ l₂ : List Char)
    (h : ∀ c ∈ l₁, p c = true) :
    (l₁ ++ l₂).takeWhile p = l₁ ++ l₂.takeWhile p := by
  induction l₁ with
  | nil => simp
  | cons a t ih =>
    simp only [List.cons_append, List.takeWhile_cons, h a (List.mem_cons_self _ _)]
    simp [ih (fun c hc => h c (List.mem_cons_of_mem _ hc))]

theorem takeWhile_all {p : Char → Bool} (l : List Char) (h : ∀ c ∈ l, p c = true) :
    l.takeWhile p = l := by
  induction l with
  | nil => rfl
  | cons a t ih =>
    simp [List.takeWhile_cons, h a (List.mem_cons_self _ _),
      ih (fun c hc => h c (List.mem_cons_of_mem _ hc))]

theorem takeWhile_append_stop {p : Char → Bool} (l₁ l₂ : List Char) (c : Char)
    (h : ∀ x ∈ l₁, p x = true) (hc : p c = false) :
    (l₁ ++ c :: l₂).takeWhile p = l₁ := by
  rw [takeWhile_append_all l₁ _ h]
  simp [List.takeWhile_cons, hc]

theorem afterLast_of_not_mem (c : Char) (l : List Char) (h : ¬ c ∈ l) :
    afterLast c l = l := by
  unfold afterLast
  rw [takeWhile_all]
  · simp
  · intro x hx
    have hxc : x ≠ c := fun he => h (he ▸ (List.mem_reverse.mp hx))
    simpa using hxc

theorem getSchemeAux_run (sc : List Char) :
    ∀ (acc rest : List Char), (∀ c ∈ sc, isAlphaGo c = true) →
      (acc = [] → sc ≠ []) →
      getSchemeAux acc (sc ++ ':' :: rest) = some (some (acc.reverse ++ sc, rest)) := by
  induction sc with
  | nil =>
    intro acc rest _ hne
    cases acc with
    | nil => exact absurd rfl (hne rfl)
    | cons a as => simp [getSchemeAux]
  | cons a st ih =>
    intro acc rest hal hne
    have ha := hal a (List.mem_cons_self _ _)
    have hane : ¬ a = ':' := by
      intro he; rw [he] at ha; exact absurd ha (by decide)
    have hcond : (if acc.isEmpty then isAlphaGo a else isSchemeRest a) = true := by
      cases hi : acc.isEmpty <;> simp [isSchemeRest, ha]
    simp only [List.cons_append, getSchemeAux, List.append_eq]
    rw [if_neg hane, if_pos hcond,
      ih (a :: acc) rest (fun c hc => hal c (List.mem_cons_of_mem _ hc)) (by intro h; simp at h)]
    simp

theorem host_not_slash (host : String) (hh : host.data.all isHostCharGo = true) :
    ∀ x ∈ host.data, (fun x => decide (x ≠ '/')) x = true := by
  intro x hx
  have hcls := isHostCharGo_toNat (List.all_eq_true.mp hh x hx)
  have hne : x ≠ '/' := by
    intro he
    rw [he] at hcls
    simp only [show ('/' : Char).toNat = 47 from rfl] at hcls
    omega
  simpa using hne

theorem goUrlParse_authority (scheme host path : String)
    (hs0 : scheme.data ≠ []) (hs : scheme.data.all isAlphaGo = true)
    (hh : host.data.all isHostCharGo = true)
    (hp : path.data.all (fun c => ¬ isCtl c) = true) :
    goUrlParse (scheme ++ "://" ++ host ++ "/" ++ path) =
      some ⟨⟨scheme.data.map lowerChar⟩, host⟩ := by
  have hschars := List.all_eq_true.mp hs
  have hhchars := List.all_eq_true.mp hh
  have hpchars := List.all_eq_true.mp hp
  have hfull : (scheme ++ "://" ++ host ++ "/" ++ path).data =
      scheme.data ++ ':' :: '/' :: '/' :: (host.data ++ '/' :: path.data) := by
    simp [String.data_append]
  have hsNoHash : ∀ c ∈ scheme.data, (fun x => decide (x ≠ '#')) c = true := by
    intro c hc
    have hcls := isAlphaGo_toNat (hschars c hc)
    have : c ≠ '#' := by
      intro he; rw [he] at hcls
      simp only [show ('#' : Char).toNat = 35 from rfl] at hcls
      omega
    simpa using this
  have hhNoHash : ∀ c ∈ host.data, (fun x => decide (x ≠ '#')) c = true := by
    intro c hc
    have hcls := isHostCharGo_toNat (hhchars c hc)
    have : c ≠ '#' := by
      intro he; rw [he] at hcls
      simp only [show ('#' : Char).toNat = 35 from rfl] at hcls
      omega
    simpa using this
  have hhNoQm : ∀ c ∈ host.data, (fun x => decide (x ≠ '?')) c = true := by
    intro c hc
    have hcls := isHostCharGo_toNat (hhchars c hc)
    have : c ≠ '?' := by
      intro he; rw [he] at hcls
      simp only [show ('?' : Char).toNat = 63 from rfl] at hcls
      omega
    simpa using this
  have hfrag : cutBefore '#' (scheme ++ "://" ++ host ++ "/" ++ path).data =
      scheme.data ++ ':' :: '/' :: '/' :: (host.data ++ '/' :: cutBefore '#' path.data) := by
    rw [hfull]
    unfold cutBefore
    rw [takeWhile_append_all _ _ hsNoHash]
    simp only [List.takeWhile_cons]
    rw [if_pos (by decide), if_pos (by decide), if_pos (by decide)]
    rw [takeWhile_append_all _ _ hhNoHash]
    simp only [List.takeWhile_cons]
    rw [if_pos (by decide)]
  have hctl : (scheme.data ++ ':' :: '/' :: '/' ::
      (host.data ++ '/' :: cutBefore '#' path.data)).any isCtl = false := by
    simp only [List.any_append, List.any_cons, Bool.or_eq_false_iff]
    refine ⟨?_, by decide, by decide, by decide, ?_, by decide, ?_⟩
    · rw [List.any_eq_false]
      intro c hc
      have hcls := isAlphaGo_toNat (hschars c hc)
      simp only [isCtl, Bool.or_eq_true, decide_eq_true_eq]
      omega
    · rw [List.any_eq_false]
      intro c hc
      have hcls := isHostCharGo_toNat (hhchars c hc)
      simp only [isCtl, Bool.or_eq_true, decide_eq_true_eq]
      omega
    · rw [List.any_eq_false]
      intro c hc
      have hcin : c ∈ path.data := List.takeWhile_subset _ hc
      have := hpchars c hcin
      simpa using this
  have hschemeRun : getSchemeAux []
      (scheme.data ++ ':' :: '/' :: '/' :: (host.data ++ '/' :: cutBefore '#' path.data)) =
      some (some (scheme.data, '/' :: '/' :: (host.data ++ '/' :: cutBefore '#' path.data))) := by
    have hr := getSchemeAux_run scheme.data []
      ('/' :: '/' :: (host.data ++ '/' :: cutBefore '#' path.data)) hschars (fun _ => hs0)
    simpa using hr
  have hquery : cutBefore '?' ('/' :: '/' :: (host.data ++ '/' :: cutBefore '#' path.data)) =
      '/' :: '/' :: (host.data ++ '/' :: cutBefore '?' (cutBefore '#' path.data)) := by
    unfold cutBefore
    simp only [List.takeWhile_cons]
    rw [if_pos (by decide), if_pos (by decide)]
    rw [takeWhile_append_all _ _ hhNoQm]
    simp only [List.takeWhile_cons]
    rw [if_pos (by decide)]
  have hauth : (host.data ++ '/' :: cutBefore '?' (cutBefore '#' path.data)).takeWhile
      (fun x => x ≠ '/') = host.data :=
    takeWhile_append_stop _ _ _ (host_not_slash host hh) (by simp)
  have hhNoAt : ¬ '@' ∈ host.data := by
    intro hm
    have hcls := isHostCharGo_toNat (hhchars _ hm)
    simp only [show ('@' : Char).toNat = 64 from rfl] at hcls
    omega
  have hhNoColon : ¬ ':' ∈ host.data := by
    intro hm
    have hcls := isHostCharGo_toNat (hhchars _ hm)
    simp only [show (':' : Char).toNat = 58 from rfl] at hcls
    omega
  have hhNoBracket : host.data.head? ≠ some '[' := by
    intro hm
    have hmem : '[' ∈ host.data := by
      cases hd : host.data with
      | nil => rw [hd] at hm; simp at hm
      | cons a t =>
        rw [hd] at hm
        simp only [List.head?_cons, Option.some.injEq] at hm
        rw [← hm]; exact List.mem_cons_self _ _
    have hcls := isHostCharGo_toNat (hhchars _ hmem)
    simp only [show ('[' : Char).toNat = 91 from rfl] at hcls
    omega
  have hhost : parseHostGo (afterLast '@' host.data) = some host.data := by
    rw [afterLast_of_not_mem _ _ hhNoAt]
    unfold parseHostGo
    rw [if_neg hhNoBracket]
    have hcont : host.data.contains ':' = false := by
      simp [List.contains]
      exact fun hx => hhNoColon hx
    rw [if_neg (by intro hx; rw [hcont] at hx; exact absurd hx (by decide))]
  unfold goUrlParse
  simp only [hfrag, hctl, Bool.false_eq_true, if_false, hschemeRun, hquery]
  rw [if_pos ⟨by simp [isPrefixL], Or.inl hs0⟩]
  simp only [List.drop_succ_cons, List.drop_zero, hauth, hhost]

/-- C8: the rate limiter fails open — whenever the URL fails to parse or
parses with an empty host, extractDomain is "" and Wait returns
immediately with no sleep and no state change — and the pacing key is
derived from the URL's authority component only: for any well-formed
scheme, host and path, extractDomain returns exactly the host, whatever
the scheme and the path are. -/
theorem wait_fail_open_and_authority_key :
    (∀ (d : Nat) (s : RLState) (u : String) (now : Nat), extractDomain u = "" →
      waitStep d s u now = (s, 0)) ∧
    (∀ (scheme host path : String),
      scheme.data ≠ [] → scheme.data.all isAlphaGo = true →
      host.data.all isHostCharGo = true →
      path.data.all (fun c => ¬ isCtl c) = true →
      extractDomain (scheme ++ "://" ++ host ++ "/" ++ path) = host) := by
  constructor
  · intro d s u now h
    simp [waitStep, h]
  · intro scheme host path hs0 hs hh hp
    unfold extractDomain
    rw [goUrlParse_authority scheme host path hs0 hs hh hp]

/-- Witness for C8: an unparseable-host URL leaves the limiter state
untouched, and two URLs sharing an authority but differing in scheme and
path give the same pacing key. -/
theorem wait_fail_open_and_authority_key_witness :
    waitStep 7 ⟨[("x", 3)], ["x"]⟩ "example.com/path" 10 = (⟨[("x", 3)], ["x"]⟩, 0) ∧
    extractDomain ("https" ++ "://" ++ "Example.com" ++ "/" ++ "a?b#c") = "Example.com" :=
  ⟨wait_fail_open_and_authority_key.1 7 ⟨[("x", 3)], ["x"]⟩ "example.com/path" 10 (by decide),
   wait_fail_open_and_authority_key.2 "https" "Example.com" "a?b#c"
     (by decide) (by decide) (by decide) (by decide)⟩

/-! ## profile.Profile and the codeberg adapter -/

/-- profile.Profile restricted to the fields the verified claims touch;
Fields is an insertion-ordered association list with map (replace)
semantics. -/
structure Profile where
  platform : String := ""
  url : String := ""
  authenticated : Bool := false
  username : String := ""
  name : String := ""
  bio : String := ""
  location : String := ""
  website : String := ""
  fields : List (String × String) := []
  socialLinks : List String := []
  unstructured : String := ""
deriving Repr, DecidableEq

/-- Go map assignment fields[k] = v: replace an existing key, else
append. -/
def setField (fs : List (String × String)) (k v : String) : List (String × String) :=
  if fs.any (fun p => p.1 == k) then
    fs.map (fun p => if p.1 == k then (k, v) else p)
  else fs ++ [(k, v)]

/-- The leftmost match of the codeberg username pattern
`codeberg\.org/([^/?]+)`: the maximal run of non-slash non-question-mark
characters after the first viable `codeberg.org/` occurrence. -/
def findCodebergUser : List Char → Option (List Char)
  | [] => none
  | c :: t =>
    if isPrefixL "codeberg.org/".data (c :: t) then
      let u := ((c :: t).drop "codeberg.org/".data.length).takeWhile
        (fun x => x ≠ '/' ∧ x ≠ '?')
      if u.isEmpty then findCodebergUser t else some u
    else findCodebergUser t

/-- codeberg.extractUsername: strip protocol and www, then capture the
username component. -/
def cbExtractUsername (urlStr : String) : String :=
  let s1 := trimPrefixGo urlStr "https://"
  let s2 := trimPrefixGo s1 "http://"
  let s3 := trimPrefixGo s2 "www."
  match findCodebergUser s3.data with
  | some u => ⟨u⟩
  | none => ""

/-- The outcomes of the regular-expression engine and of
html.UnescapeString on the fetched page, which are external to the
translated control flow of codeberg.parseHTML: each field holds the
captured group of the corresponding pattern, none when the pattern does
not match. -/
structure CbRegexOracle where
  unesc : String → String
  ogTitle : Option String := none
  avatarTitle : Option String := none
  headerSpan : Option String := none
  ogDesc : Option String := none
  websiteRelMe : Option String := none
  websiteHref : Option String := none
  joined : Option String := none
  followers : Option String := none
  following : Option String := none
  pronouns : Option String := none

/-- codeberg.parseHTML: build the profile from the pattern captures.
SocialLinks is deliberately never assigned (the page footer carries
Codeberg's own institutional links). -/
def cbParseHTML (o : CbRegexOracle) (urlStr username : String) : Profile :=
  let name1 := match o.ogTitle with
    | some m => trimSpaceGo (o.unesc m)
    | none => ""
  let name2 := if name1 = "" then
      (match o.avatarTitle with
       | some m => trimSpaceGo (o.unesc m)
       | none => "")
    else name1
  let name3 := if name2 = "" then
      (match o.headerSpan with
       | some m => trimSpaceGo (o.unesc m)
       | none => "")
    else name2
  let bio := match o.ogDesc with
    | some m =>
      let b := trimSpaceGo (o.unesc m)
      if b ≠ "" ∧ ¬ containsGo b "Codeberg is a non-profit" then b else ""
    | none => ""
  let website1 := match o.websiteRelMe with
    | some w =>
      if ¬ containsGo w "codeberg.org" ∧ ¬ containsGo w "docs.codeberg.org" ∧
          ¬ containsGo w "blog.codeberg.org" then w else ""
    | none => ""
  let website2 := if website1 = "" then
      (match o.websiteHref with
       | some w => if ¬ containsGo w "codeberg.org" then w else ""
       | none => "")
    else website1
  let f1 := match o.joined with
    | some m => setField [] "joined" m
    | none => []
  let f2 := match o.followers with
    | some m => setField f1 "followers" m
    | none => f1
  let f3 := match o.following with
    | some m => setField f2 "following" m
    | none => f2
  let f4 := match o.pronouns with
    | some m =>
      let p := trimSpaceGo m
      if p ≠ "" ∧ p.length < 20 then setField f3 "pronouns" p else f3
    | none => f3
  { platform := "codeberg", url := urlStr, authenticated := false,
    username := username, name := name3, bio := bio, website := website2,
    fields := f4, socialLinks := [] }

/-- The URL codeberg Fetch uses after its normalization step. -/
def cbNormalizeURL (urlStr : String) : String :=
  if ¬ hasPrefixGo urlStr "http" then "https://codeberg.org/" ++ cbExtractUsername urlStr
  else urlStr

/-- The collaborators of codeberg Client.Fetch: the injected cache (none
models a nil cache), the HTTP fetch outcome, the value SetAsync returns,
and the parse oracle for whatever body is parsed. -/
structure CbEnv where
  cacheGet : Option (String → Option String)
  netResult : Except String (Nat × String)
  setAsyncErr : Option String
  oracle : CbRegexOracle

/-- The cache consultation Fetch performs (nil cache never hits). -/
def cacheLookup (env : CbEnv) (url : String) : Option String :=
  match env.cacheGet with
  | some g => g url
  | none => none

/-- codeberg Client.Fetch control flow: extract the username, normalize
the URL, consult the cache, otherwise perform the HTTP request, cache
the body asynchronously with the SetAsync result discarded, and parse.
The Bool records whether an HTTP request was issued. -/
def codebergFetch (env : CbEnv) (urlStr : String) : Except String Profile × Bool :=
  if cbExtractUsername urlStr = "" then
    (Except.error ("could not extract username from: " ++ urlStr), false)
  else
    match cacheLookup env (cbNormalizeURL urlStr) with
    | some _data =>
      (Except.ok (cbParseHTML env.oracle (cbNormalizeURL urlStr) (cbExtractUsername urlStr)), false)
    | none =>
      match env.netResult with
      | Except.error e => (Except.error e, true)
      | Except.ok (status, _body) =>
        if status ≠ 200 then (Except.error ("HTTP " ++ toString status), true)
        else
          (Except.ok (cbParseHTML env.oracle (cbNormalizeURL urlStr) (cbExtractUsername urlStr)), true)

/-- A concrete parse oracle for witnesses: no pattern matches and
unescaping is the identity. -/
def cbTrivOracle : CbRegexOracle := { unesc := id }

/-! ## Theorems: C10, C5, C6 -/

/-- C10: codeberg profiles never extend the crawl frontier — whatever
the page content (i.e. for every possible outcome of the extraction
patterns), the profile parseHTML builds has an empty SocialLinks list. -/
theorem codeberg_no_social_links (o : CbRegexOracle) (urlStr username : String) :
    (cbParseHTML o urlStr username).socialLinks = [] := rfl

/-- C5: the SetAsync result has no influence on what Fetch returns — two
runs differing only in the cache write outcome return identical results,
and on the successful network path the parsed profile is returned with
no error whatever the cache write outcome was. -/
theorem codeberg_cache_write_never_fails_fetch
    (env : CbEnv) (e1 e2 : Option String) (u : String) (body : String)
    (hu : cbExtractUsername u ≠ "")
    (hc : cacheLookup env (cbNormalizeURL u) = none)
    (hn : env.netResult = Except.ok (200, body)) :
    codebergFetch { env with setAsyncErr := e1 } u =
        codebergFetch { env with setAsyncErr := e2 } u ∧
      codebergFetch { env with setAsyncErr := e1 } u =
        (Except.ok (cbParseHTML env.oracle (cbNormalizeURL u) (cbExtractUsername u)), true) := by
  have hrun : ∀ e : Option String,
      codebergFetch { env with setAsyncErr := e } u =
        (Except.ok (cbParseHTML env.oracle (cbNormalizeURL u) (cbExtractUsername u)), true) := by
    intro e
    unfold codebergFetch
    rw [if_neg hu]
    have hc' : cacheLookup { env with setAsyncErr := e } (cbNormalizeURL u) = none := hc
    rw [hc']
    have hn' : ({ env with setAsyncErr := e } : CbEnv).netResult = Except.ok (200, body) := hn
    rw [hn']
    simp
  exact ⟨(hrun e1).trans (hrun e2).symm, hrun e1⟩

/-- Witness for C5 at a concrete environment whose SetAsync fails. -/
theorem codeberg_cache_write_never_fails_fetch_witness :
    codebergFetch ⟨none, Except.ok (200, "body"), some "disk full", cbTrivOracle⟩
        "https://codeberg.org/alice" =
      codebergFetch ⟨none, Except.ok (200, "body"), none, cbTrivOracle⟩
        "https://codeberg.org/alice" ∧
    codebergFetch ⟨none, Except.ok (200, "body"), some "disk full", cbTrivOracle⟩
        "https://codeberg.org/alice" =
      (Except.ok (cbParseHTML cbTrivOracle (cbNormalizeURL "https://codeberg.org/alice")
        (cbExtractUsername "https://codeberg.org/alice")), true) :=
  codeberg_cache_write_never_fails_fetch
    ⟨none, Except.ok (200, "body"), some "disk full", cbTrivOracle⟩
    (some "disk full") none "https://codeberg.org/alice" "body"
    (by decide) (by rfl) (by rfl)

/-- C6: a cache hit short-circuits the network — when Get finds the
normalized profile URL, Fetch returns the profile parsed from the cached
bytes with no error and no HTTP request; a miss is not an error: with a
successful 200 response the network path also returns the parsed
profile, the HTTP request flag set. -/
theorem codeberg_cache_hit_short_circuits
    (env : CbEnv) (u : String) (hu : cbExtractUsername u ≠ "") :
    (∀ data, cacheLookup env (cbNormalizeURL u) = some data →
      codebergFetch env u =
        (Except.ok (cbParseHTML env.oracle (cbNormalizeURL u) (cbExtractUsername u)), false)) ∧
    (∀ body, cacheLookup env (cbNormalizeURL u) = none →
      env.netResult = Except.ok (200, body) →
      codebergFetch env u =
        (Except.ok (cbParseHTML env.oracle (cbNormalizeURL u) (cbExtractUsername u)), true)) := by
  constructor
  · intro data hhit
    unfold codebergFetch
    rw [if_neg hu, hhit]
  · intro body hmiss hn
    unfold codebergFetch
    rw [if_neg hu, hmiss, hn]
    simp

/-- Witness for C6: a concrete cache hit returns the parsed cached body
without HTTP, and a concrete miss proceeds to the network. -/
theorem codeberg_cache_hit_short_circuits_witness :
    codebergFetch
        ⟨some (fun url => if url = "https://codeberg.org/alice" then some "cached" else none),
         Except.error "network unreachable", none, cbTrivOracle⟩
        "https://codeberg.org/alice" =
      (Except.ok (cbParseHTML cbTrivOracle (cbNormalizeURL "https://codeberg.org/alice")
        (cbExtractUsername "https://codeberg.org/alice")), false) ∧
    codebergFetch ⟨some (fun _ => none), Except.ok (200, "body"), none, cbTrivOracle⟩
        "https://codeberg.org/alice" =
      (Except.ok (cbParseHTML cbTrivOracle (cbNormalizeURL "https://codeberg.org/alice")
        (cbExtractUsername "https://codeberg.org/alice")), true) :=
  ⟨(codeberg_cache_hit_short_circuits
      ⟨some (fun url => if url = "https://codeberg.org/alice" then some "cached" else none),
       Except.error "network unreachable", none, cbTrivOracle⟩
      "https://codeberg.org/alice" (by decide)).1 "cached" (by rfl),
   (codeberg_cache_hit_short_circuits
      ⟨some (fun _ => none), Except.ok (200, "body"), none, cbTrivOracle⟩
      "https://codeberg.org/alice" (by decide)).2 "body" (by rfl) (by rfl)⟩

/-! ## github.parseJSON (C7) -/

/-- The decoded GitHub API user object, the result of json.Unmarshal
(the Go `Type` field is `accountType` here; Go zero values are the
defaults). -/
structure GhUser where
  login : String := ""
  name : String := ""
  bio : String := ""
  location : String := ""
  blog : String := ""
  email : String := ""
  twitterUser : String := ""
  company : String := ""
  publicRepos : Int := 0
  followers : Int := 0
  following : Int := 0
  avatarURL : String := ""
  htmlURL : String := ""
  accountType : String := ""
deriving Repr, DecidableEq

/-- One decimal digit character. -/
def digitChar (n : Nat) : Char := Char.ofNat (48 + n % 10)

/-- Fuelled decimal printer for strconv.Itoa. -/
def natDigitsAux : Nat → Nat → List Char → List Char
  | 0, _, acc => acc
  | fuel + 1, n, acc =>
    if n < 10 then digitChar n :: acc
    else natDigitsAux fuel (n / 10) (digitChar (n % 10) :: acc)

/-- Go strconv.Itoa. -/
def goItoa (n : Int) : String :=
  if n < 0 then "-" ++ ⟨natDigitsAux (n.natAbs + 1) n.natAbs []⟩
  else ⟨natDigitsAux (n.toNat + 1) n.toNat []⟩

theorem natDigitsAux_ne_nil (fuel : Nat) :
    ∀ (n : Nat) (acc : List Char), (fuel ≠ 0 ∨ acc ≠ []) → natDigitsAux fuel n acc ≠ [] := by
  induction fuel with
  | zero =>
    intro n acc h
    rcases h with h | h
    · exact absurd rfl h
    · simpa [natDigitsAux] using h
  | succ fuel ih =>
    intro n acc _
    simp only [natDigitsAux]
    split
    · simp
    · exact ih (n / 10) (digitChar (n % 10) :: acc) (Or.inr (by simp))

theorem goItoa_ne_empty (n : Int) : goItoa n ≠ "" := by
  unfold goItoa
  split
  · intro h
    have hd := congrArg String.data h
    rw [String.data_append] at hd
    simp at hd
  · intro h
    have hd := congrArg String.data h
    have := natDigitsAux_ne_nil (n.toNat + 1) n.toNat [] (Or.inl (by simp))
    exact this (by simpa using hd)

theorem append_ne_empty (a b : String) (h : a.data ≠ []) : a ++ b ≠ "" := by
  intro he
  have hd := congrArg String.data he
  rw [String.data_append] at hd
  simp only [show ("" : String).data = [] from rfl] at hd
  exact h (List.append_eq_nil.mp hd).1

theorem isPrefixL_drop_eq (p : List Char) :
    ∀ l : List Char, isPrefixL p l = true → l.drop p.length = [] → l = p := by
  induction p with
  | nil =>
    intro l _ hd
    simpa using hd
  | cons a as ih =>
    intro l hp hd
    cases l with
    | nil => simp [isPrefixL] at hp
    | cons b bs =>
      simp only [isPrefixL, Bool.and_eq_true, decide_eq_true_eq] at hp
      simp only [List.length_cons, List.drop_succ_cons] at hd
      rw [hp.1, ih bs hp.2 hd]

theorem trimPrefixGo_ne_empty (s p : String) (hs : s ≠ "") (hsp : s ≠ p) :
    trimPrefixGo s p ≠ "" := by
  unfold trimPrefixGo hasPrefixGo
  split
  · next hpre =>
    intro he
    have hd := congrArg String.data he
    simp only [show ("" : String).data = [] from rfl] at hd
    have : s.data = p.data := isPrefixL_drop_eq p.data s.data hpre hd
    exact hsp (by cases s; cases p; exact congrArg String.mk this)
  · exact hs

/-- The blog-field stage of parseJSON: the fields it contributes and the
website it assigns. -/
def ghBlogStage (ex : String → Option String) (blog : String) :
    List (String × String) × String :=
  if blog ≠ "" then
    if hasPrefixGo (toLowerGo blog) "mailto:" then
      (setField [] "email" (trimPrefixGo (toLowerGo blog) "mailto:"), "")
    else
      match ex (if ¬ hasPrefixGo blog "http" then "https://" ++ blog else blog) with
      | some email => (setField [] "email" email, "")
      | none =>
        (setField [] "website" (if ¬ hasPrefixGo blog "http" then "https://" ++ blog else blog),
          (if ¬ hasPrefixGo blog "http" then "https://" ++ blog else blog))
  else ([], "")

/-- The Fields map parseJSON builds, in source order. -/
def ghFields (ex : String → Option String) (gh : GhUser) : List (String × String) :=
  let f1 := (ghBlogStage ex gh.blog).1
  let f2 := if gh.email ≠ "" then setField f1 "email" gh.email else f1
  let f3 := if gh.company ≠ "" then setField f2 "company" (trimPrefixGo gh.company "@") else f2
  let f4 := if gh.twitterUser ≠ "" then
      setField f3 "twitter" ("https://twitter.com/" ++ gh.twitterUser) else f3
  let f5 := if gh.publicRepos > 0 then setField f4 "public_repos" (goItoa gh.publicRepos) else f4
  let f6 := if gh.followers > 0 then setField f5 "followers" (goItoa gh.followers) else f5
  let f7 := if gh.following > 0 then setField f6 "following" (goItoa gh.following) else f6
  let f8 := if gh.avatarURL ≠ "" then setField f7 "avatar_url" gh.avatarURL else f7
  if gh.accountType ≠ "" then setField f8 "type" gh.accountType else f8

/-- github.parseJSON given the decoded API object; ex stands for the
external htmlutil.ExtractEmailFromURL (some email when the URL is
recognized as an email address). -/
def ghParseJSON (ex : String → Option String) (gh : GhUser) (urlStr : String) : Profile :=
  { platform := "github", url := urlStr, authenticated := false,
    username := gh.login, name := gh.name, bio := gh.bio, location := gh.location,
    website := (ghBlogStage ex gh.blog).2,
    fields := ghFields ex gh,
    socialLinks := if gh.twitterUser ≠ "" then ["https://twitter.com/" ++ gh.twitterUser] else [] }

theorem setField_mem {fs : List (String × String)} {k v : String} {kv : String × String}
    (h : kv ∈ setField fs k v) : kv = (k, v) ∨ kv ∈ fs := by
  unfold setField at h
  split at h
  · rcases List.mem_map.mp h with ⟨p, hp, hpe⟩
    by_cases hpk : p.1 == k
    · left; rw [← hpe]; simp [hpk]
    · right; rw [← hpe]; simp only [hpk, Bool.false_eq_true, if_false]; exact hp
  · rcases List.mem_append.mp h with h2 | h2
    · right; exact h2
    · left; simpa using h2

theorem stage_ne {fs : List (String × String)} {c : Prop} [Decidable c] {k v : String}
    (hfs : ∀ kv ∈ fs, kv.2 ≠ "") (hv : c → v ≠ "") :
    ∀ kv ∈ (if c then setField fs k v else fs), kv.2 ≠ "" := by
  intro kv hkv
  split at hkv
  · next hc =>
    rcases setField_mem hkv with heq | hm
    · rw [heq]; exact hv hc
    · exact hfs kv hm
  · exact hfs kv hkv

theorem toLowerGo_ne_empty {s : String} (h : s ≠ "") : toLowerGo s ≠ "" := by
  intro he
  have hd := congrArg String.data he
  simp only [toLowerGo] at hd
  have hnil : s.data = [] := by simpa using hd
  exact h (by cases s; exact congrArg String.mk hnil)

theorem ghBlogStage_ne (ex : String → Option String) (blog : String)
    (hex : ∀ s e, ex s = some e → e ≠ "")
    (hblog : toLowerGo blog ≠ "mailto:") :
    ∀ kv ∈ (ghBlogStage ex blog).1, kv.2 ≠ "" := by
  intro kv hkv
  unfold ghBlogStage at hkv
  split at hkv
  · next hb =>
    split at hkv
    · have hkv2 : kv ∈ setField [] "email" (trimPrefixGo (toLowerGo blog) "mailto:") := hkv
      rcases setField_mem hkv2 with heq | hm
      · rw [heq]
        exact trimPrefixGo_ne_empty _ _ (toLowerGo_ne_empty hb) hblog
      · simp at hm
    · split at hkv
      · next email hmatch =>
        have hkv2 : kv ∈ setField [] "email" email := hkv
        rcases setField_mem hkv2 with heq | hm
        · rw [heq]
          exact hex _ _ hmatch
        · simp at hm
      · have hkv2 : kv ∈ setField [] "website"
            (if ¬ hasPrefixGo blog "http" then "https://" ++ blog else blog) := hkv
        rcases setField_mem hkv2 with heq | hm
        · rw [heq]
          split
          · exact append_ne_empty "https://" blog (by decide)
          · exact hb
        · simp at hm
  · simp at hkv

/-- C7 counterexample: parseJSON on the API object whose blog field is
exactly "mailto:" stores an empty email value, so Fields does hold a
key with an empty string value. -/
theorem github_fields_empty_value_counterexample :
    ("email", "") ∈ (ghParseJSON (fun _ => none) { blog := "mailto:" }
      "https://github.com/x").fields := by decide

/-- C7 (amended): parseJSON always sets platform to "github" (never
empty), and Fields holds no empty value provided the blog field is not
exactly "mailto:" (case-insensitively), the company field is not exactly
"@", and the external email extractor only reports non-empty emails; the
two excluded degenerate inputs store an empty email/company value. -/
theorem github_parse_invariants (ex : String → Option String) (gh : GhUser) (u : String)
    (hex : ∀ s e, ex s = some e → e ≠ "")
    (hblog : toLowerGo gh.blog ≠ "mailto:")
    (hcomp : gh.company ≠ "@") :
    (ghParseJSON ex gh u).platform = "github" ∧
    ∀ kv ∈ (ghParseJSON ex gh u).fields, kv.2 ≠ "" := by
  refine ⟨rfl, ?_⟩
  show ∀ kv ∈ ghFields ex gh, kv.2 ≠ ""
  unfold ghFields
  refine stage_ne (stage_ne (stage_ne (stage_ne (stage_ne (stage_ne (stage_ne (stage_ne
    (ghBlogStage_ne ex gh.blog hex hblog)
    (fun hc => hc))
    (fun hc => trimPrefixGo_ne_empty _ _ hc hcomp))
    (fun _ => append_ne_empty "https://twitter.com/" gh.twitterUser (by decide)))
    (fun _ => goItoa_ne_empty _))
    (fun _ => goItoa_ne_empty _))
    (fun _ => goItoa_ne_empty _))
    (fun hc => hc))
    (fun hc => hc)

/-- Witness for C7 at a concrete API object. -/
theorem github_parse_invariants_witness :
    (ghParseJSON (fun _ => none)
        { login := "alice", blog := "alice.dev", company := "@acme", publicRepos := 3 }
        "https://github.com/alice").platform = "github" ∧
    ∀ kv ∈ (ghParseJSON (fun _ => none)
        { login := "alice", blog := "alice.dev", company := "@acme", publicRepos := 3 }
        "https://github.com/alice").fields, kv.2 ≠ "" :=
  github_parse_invariants (fun _ => none)
    { login := "alice", blog := "alice.dev", company := "@acme", publicRepos := 3 }
    "https://github.com/alice"
    (fun _ e h => by simp at h) (by decide) (by decide)

/-! ## generic.validateURL and Fetch (C9) -/

/-- Go url.URL.Hostname's stripPort: cut the port at the first colon,
honouring a bracketed IPv6 literal. -/
def stripPortGo (hostport : String) : String :=
  match indexL ":".data hostport.data with
  | none => hostport
  | some colon =>
    match indexL "]".data hostport.data with
    | some i => trimPrefixGo ⟨hostport.data.take i⟩ "["
    | none => ⟨hostport.data.take colon⟩

/-- The hostname of a URL per the modelled url.Parse (none when parsing
fails). -/
def goHostname (rawURL : String) : Option String :=
  (goUrlParse rawURL).map (fun u => stripPortGo u.host)

/-- A parsed IPv4 address. net.ParseIP is modelled for dotted-quad IPv4
text only (textual IPv6 forms are outside the model; the specific IPv6
hosts the validation names are caught by its string comparisons). -/
structure IPv4 where
  a : Nat
  b : Nat
  c : Nat
  d : Nat
deriving Repr, DecidableEq

/-- Decimal value of a digit string. -/
def digitsToNat (l : List Char) : Nat := l.foldl (fun acc c => 10 * acc + (c.toNat - 48)) 0

/-- One dotted-quad component: digits only, no leading zero, at most
255. -/
def parseDecOctet (s : String) : Option Nat :=
  if s.data = [] then none
  else if ¬ s.data.all isDigitGo then none
  else if s.data.length > 1 ∧ s.data.head? = some '0' then none
  else if digitsToNat s.data ≤ 255 then some (digitsToNat s.data) else none

/-- net.ParseIP restricted to dotted-quad IPv4. -/
def parseIPv4 (s : String) : Option IPv4 :=
  match s.split (· == '.') with
  | [p1, p2, p3, p4] =>
    match parseDecOctet p1, parseDecOctet p2, parseDecOctet p3, parseDecOctet p4 with
    | some a, some b, some c, some d => some ⟨a, b, c, d⟩
    | _, _, _, _ => none
  | _ => none

/-- net.IP.IsLoopback on IPv4: 127.0.0.0/8. -/
def ipLoopback (ip : IPv4) : Bool := ip.a == 127

/-- net.IP.IsPrivate on IPv4: 10/8, 172.16/12, 192.168/16. -/
def ipPrivate (ip : IPv4) : Bool :=
  ip.a == 10 || (ip.a == 172 && 16 ≤ ip.b && ip.b ≤ 31) || (ip.a == 192 && ip.b == 168)

/-- net.IP.IsLinkLocalUnicast on IPv4: 169.254/16. -/
def ipLinkLocalUnicast (ip : IPv4) : Bool := ip.a == 169 && ip.b == 254

/-- net.IP.IsLinkLocalMulticast on IPv4: 224.0.0/24. -/
def ipLinkLocalMulticast (ip : IPv4) : Bool := ip.a == 224 && ip.b == 0 && ip.c == 0

/-- generic.validateURL: parse, lowercase the hostname, and block local
hosts, private/loopback/link-local IPs, and metadata endpoints.  Returns
the error message, none when the URL is allowed. -/
def validateURL (urlStr : String) : Option String :=
  match goUrlParse urlStr with
  | none => some "invalid URL"
  | some parsed =>
    let host := toLowerGo (stripPortGo parsed.host)
    if host = "localhost" || host = "127.0.0.1" || host = "::1" ||
        hasSuffixGo host ".local" || hasSuffixGo host ".internal" then
      some "blocked: local host"
    else if (match parseIPv4 host with
        | some ip =>
          ipLoopback ip || ipPrivate ip || ipLinkLocalUnicast ip || ipLinkLocalMulticast ip
        | none => false) then
      some "blocked: private IP"
    else if host = "169.254.169.254" || host = "metadata.google.internal" ||
        host = "metadata.azure.com" then
      some "blocked: metadata service"
    else none

/-- The URL generic Fetch uses after prepending https:// when no scheme
prefix is present. -/
def genericNormalizeURL (urlStr : String) : String :=
  if ¬ hasPrefixGo urlStr "http://" ∧ ¬ hasPrefixGo urlStr "https://" then
    "https://" ++ urlStr
  else urlStr

/-- The network collaborator of generic Client.Fetch. -/
structure GenEnv where
  netResult : Except String String

/-- generic Client.Fetch control flow up to the fetched body (the
subsequent parseHTML never fails and does not affect the claim); the
Bool records whether an HTTP request was issued. -/
def genericFetch (env : GenEnv) (urlStr : String) : Except String String × Bool :=
  match validateURL (genericNormalizeURL urlStr) with
  | some e => (Except.error e, false)
  | none =>
    match env.netResult with
    | Except.error e => (Except.error e, true)
    | Except.ok body => (Except.ok body, true)

/-- The blocked-hostname predicate of C9, phrased on the lowercased
hostname exactly as validateURL tests it. -/
def blockedHost (host : String) : Bool :=
  host = "localhost" || host = "127.0.0.1" || host = "::1" ||
  hasSuffixGo host ".local" || hasSuffixGo host ".internal" ||
  (match parseIPv4 host with
   | some ip => ipLoopback ip || ipPrivate ip || ipLinkLocalUnicast ip || ipLinkLocalMulticast ip
   | none => false) ||
  host = "169.254.169.254" || host = "metadata.google.internal" ||
  host = "metadata.azure.com"

/-- C9: generic Fetch refuses internal targets before any network I/O —
whenever the (scheme-normalized) URL parses to a hostname that is
localhost/loopback, a .local/.internal name, a private, loopback or
link-local IPv4 address, or a metadata endpoint, Fetch returns an error
and no HTTP request is issued, whatever the network would answer. -/
theorem generic_fetch_blocks_internal (env : GenEnv) (u : String) (hn : String)
    (hparse : goHostname (genericNormalizeURL u) = some hn)
    (hblocked : blockedHost (toLowerGo hn) = true) :
    ∃ e, genericFetch env u = (Except.error e, false) := by
  unfold goHostname at hparse
  cases hq : goUrlParse (genericNormalizeURL u) with
  | none => rw [hq] at hparse; simp at hparse
  | some parsed =>
    rw [hq] at hparse
    simp only [Option.map_some', Option.some.injEq] at hparse
    have hval : ∃ e, validateURL (genericNormalizeURL u) = some e := by
      unfold validateURL
      rw [hq]
      simp only [hparse]
      by_cases h1 : (toLowerGo hn = "localhost" || toLowerGo hn = "127.0.0.1" ||
          toLowerGo hn = "::1" || hasSuffixGo (toLowerGo hn) ".local" ||
          hasSuffixGo (toLowerGo hn) ".internal") = true
      · rw [if_pos h1]; exact ⟨_, rfl⟩
      · rw [if_neg h1]
        by_cases h2 : (match parseIPv4 (toLowerGo hn) with
            | some ip =>
              ipLoopback ip || ipPrivate ip || ipLinkLocalUnicast ip || ipLinkLocalMulticast ip
            | none => false) = true
        · rw [if_pos h2]; exact ⟨_, rfl⟩
        · rw [if_neg h2]
          by_cases h3 : (toLowerGo hn = "169.254.169.254" ||
              toLowerGo hn = "metadata.google.internal" ||
              toLowerGo hn = "metadata.azure.com") = true
          · rw [if_pos h3]; exact ⟨_, rfl⟩
          · exfalso
            apply h3
            unfold blockedHost at hblocked
            simp only [Bool.or_eq_true] at hblocked h1 h3 ⊢
            tauto
    rcases hval with ⟨e, he⟩
    exact ⟨e, by unfold genericFetch; rw [he]⟩

/-- Witness for C9: a localhost URL with a port is refused with no HTTP
request even though the network would answer. -/
theorem generic_fetch_blocks_internal_witness :
    ∃ e, genericFetch ⟨Except.ok "body"⟩ "http://localhost:8080/admin" =
      (Except.error e, false) :=
  generic_fetch_blocks_internal ⟨Except.ok "body"⟩ "http://localhost:8080/admin"
    "localhost" (by decide) (by decide)
